import Mathlib

/-!
Verification of the pic2func geometric-reconstruction pipeline.

The Python sources (pic2func/detect.py, pic2func/function.py) are shallowly
embedded below: numpy 1-D arrays become `List Int` / `List ℚ`, 2-D masks
become `List (List Int)`, float arithmetic is modelled exactly over `ℚ`
(with the Lean convention `q / 0 = 0` standing in for the float `inf`/`nan`
produced by a zero denominator, noted at each definition it affects), and
Python exceptions (asserts, IndexError, NotImplementedError) become `none`
of an `Option` result.  numpy's negative-index wrap-around is modelled
explicitly where the code can reach it.
-/

namespace Pic2Func

/-! ### Generic numpy-style helpers -/

/-- `np.min` of a 1-D integer array, with the head as the initial value
(numpy raises on an empty array; callers below never pass one, and `0` is
returned in that dead case). -/
def npmin : List Int → Int
  | [] => 0
  | a :: as => as.foldl min a

/-- `np.max` of a 1-D integer array, with the head as the initial value
(`0` in the dead empty case). -/
def npmax : List Int → Int
  | [] => 0
  | a :: as => as.foldl max a

/-- Helper for `npargmin`/`npargmax`: walk the tail keeping the first best
index. `strict` direction is fixed by the comparison passed in. -/
def npargminAux : List Int → Nat → Int → Nat → Nat
  | [], best, _, _ => best
  | a :: as, best, bestVal, cur =>
      if a < bestVal then npargminAux as cur a (cur + 1)
      else npargminAux as best bestVal (cur + 1)

/-- `np.argmin`: index of the first minimum (`0` in the dead empty case). -/
def npargmin : List Int → Nat
  | [] => 0
  | a :: as => npargminAux as 0 a 1

/-- Helper for `npargmax`. -/
def npargmaxAux : List Int → Nat → Int → Nat → Nat
  | [], best, _, _ => best
  | a :: as, best, bestVal, cur =>
      if bestVal < a then npargmaxAux as cur a (cur + 1)
      else npargmaxAux as best bestVal (cur + 1)

/-- `np.argmax`: index of the first maximum (`0` in the dead empty case). -/
def npargmax : List Int → Nat
  | [] => 0
  | a :: as => npargmaxAux as 0 a 1

/-- First difference `v[1:] - v[:-1]` of a 1-D array. -/
def npdiff (v : List Int) : List Int :=
  List.zipWith (fun a b => b - a) v v.tail

/-- `np.where(d == x)[0]` for a 1-D array: the indices (counting from `i0`)
of the entries equal to `x`, in order. -/
def idxWhere (x : Int) : List Int → Nat → List Nat
  | [], _ => []
  | a :: as, i => if a = x then i :: idxWhere x as (i + 1) else idxWhere x as (i + 1)

/-- `np.mean` of a list of rationals (exact model of the float mean). -/
def mean (l : List ℚ) : ℚ := l.sum / l.length

/-- `np.linspace a b n`: `n` evenly spaced points from `a` to `b` inclusive.
For `n = 1` the division by `n - 1 = 0` yields `0` in a Lean field, giving
`[a]` exactly as numpy does; `n = 0` gives `[]`. -/
def linspace {α : Type} [Field α] (a b : α) (n : Nat) : List α :=
  (List.range n).map (fun i : Nat => a + (i : α) * (b - a) / ((n : α) - 1))

/-- `[i for i in range(a, b)]` over integers. -/
def rangeZ (a b : Int) : List Int :=
  (List.range (b - a).toNat).map (fun k : Nat => a + (k : Int))

/-! ### detect.py: detect_line and detect_axes -/

/-- `detect.detect_line(v, L)`: pad `v` with a zero at each end, take the
first difference, read run starts (+1) and run ends (-1), and report
whether the longest run reaches `L` together with that length.  The
leading guard models `assert L <= len(v)` (`none` = AssertionError).  The
middle branch (`startids` nonempty, `stopids` empty) is kept although the
added zeros make it unreachable, as in the source. -/
def detect_line (v : List Int) (L : Nat) : Option (Bool × Int) :=
  if L ≤ v.length then
    let v0 : List Int := 0 :: (v ++ [0])
    let diff := npdiff v0
    let startids := idxWhere 1 diff 0
    let stopids := idxWhere (-1) diff 0
    match startids, stopids with
    | [], _ => some (false, 0)
    | s :: _, [] =>
        let maxL : Int := (v.length : Int) - (s : Int)
        some (decide ((L : Int) ≤ maxL), maxL)
    | s :: ss, t :: ts =>
        let maxL := npmax (List.zipWith (fun (b a : Nat) => (b : Int) - (a : Int)) (t :: ts) (s :: ss))
        some (decide ((L : Int) ≤ maxL), maxL)
  else none

/-- The detection verdict of `detect_line`, with an error mapped to `true`
so that a `false` verdict certifies both success and a failed threshold
test ("this row/column does not pass the threshold"). -/
def detect_flag (v : List Int) (L : Nat) : Bool :=
  match detect_line v L with
  | none => true
  | some p => p.1

/-- Column `j` of a mask, `pic[:, j]` (masks are rectangular, so the
`getD` default is never used for in-range `j`). -/
def column (pic : List (List Int)) (j : Nat) : List Int :=
  pic.map (fun row => row.getD j 0)

/-- One scanning loop of `detect_axes`: run `detect_line` on each vector,
collecting `(index, maxL)` for the detected ones, propagating the
assertion error. -/
def scanAxesAux (L : Nat) : List (List Int) → Nat → Option (List (Nat × Int))
  | [], _ => some []
  | r :: rs, i => do
      let (det, maxL) ← detect_line r L
      let rest ← scanAxesAux L rs (i + 1)
      pure (if det then (i, maxL) :: rest else rest)

/-- `detect.detect_axes(pic, minlen_axis)`: scan all rows against
`int(minlen_axis * NJ)` and all columns against `int(minlen_axis * NI)`,
then pick the row/column with the longest run (first occurrence on ties,
as `np.argmax`); the fallback origin is `Iaxis = NI`, `Jaxis = 0`
(bottom-left corner).  Returns `(Iaxis, Jaxis)`. -/
def detect_axes (pic : List (List Int)) (minlen_axis : ℚ) : Option (Nat × Nat) :=
  let NI := pic.length
  let NJ := (pic.headD []).length
  let minI := (⌊minlen_axis * (NI : ℚ)⌋).toNat
  let minJ := (⌊minlen_axis * (NJ : ℚ)⌋).toNat
  do
    let possJ ← scanAxesAux minJ pic 0
    let possI ← scanAxesAux minI ((List.range NJ).map (column pic)) 0
    let Iaxis := if possI.isEmpty then NI
      else (possI.map Prod.fst).getD (npargmax (possI.map Prod.snd)) 0
    let Jaxis := if possJ.isEmpty then 0
      else (possJ.map Prod.fst).getD (npargmax (possJ.map Prod.snd)) 0
    pure (Iaxis, Jaxis)

/-! ### function.py: coordinate mapping -/

/-- `function.get_scaleandshift_IJtoXY(ixticks, jyticks, axes)` over exact
rationals.  Ticks are `(pixelPosition, numericValue)` pairs; the source
keeps each reference point as a 2-vector with a zero in the unused slot,
so only the scalars used by the formulas are tracked here.  `none` models
the asserts (`len > 0`, lone-tick pixel coordinate nonzero) and the
`NotImplementedError` for more than two ticks.  A zero denominator, which
floats turn into `inf`/`nan`, is `q / 0 = 0` here. -/
def get_scaleandshift_IJtoXY (ixticks jyticks : List (ℚ × ℚ)) (axes : ℚ × ℚ) :
    Option ((ℚ × ℚ) × (ℚ × ℚ)) :=
  if ixticks.length = 0 then none
  else if jyticks.length = 0 then none
  else
    let crossIJ : ℚ × ℚ := (axes.2, axes.1)
    let I1 : ℚ := (ixticks.headD (0, 0)).1
    let X1 : ℚ := (ixticks.headD (0, 0)).2
    let J1 : ℚ := (jyticks.headD (0, 0)).1
    let Y1 : ℚ := (jyticks.headD (0, 0)).2
    let refsI : Option (ℚ × ℚ) :=
      if ixticks.length = 2 then some ((ixticks.getD 1 (0, 0)).1, (ixticks.getD 1 (0, 0)).2)
      else if 2 < ixticks.length then none
      else if I1 = 0 then none else some (crossIJ.1, 0)
    let refsJ : Option (ℚ × ℚ) :=
      if jyticks.length = 2 then some ((jyticks.getD 1 (0, 0)).1, (jyticks.getD 1 (0, 0)).2)
      else if 2 < jyticks.length then none
      else if J1 = 0 then none else some (crossIJ.2, 0)
    do
      let (I2, X2) ← refsI
      let (J2, Y2) ← refsJ
      let xscale := (X2 - X1) / (I2 - I1)
      let yscale := (Y2 - Y1) / (J2 - J1)
      let Jorig := -Y2 / yscale + J2
      let Iorig := -X2 / xscale + I2
      pure ((xscale, yscale), (-Iorig, -Jorig))

/-- One row of `get_XYfunc`'s `np.matmul(fij + shift, scale)` with the
diagonal scale matrix: `xy = scale · (ij + shift)` applied to one point. -/
def applyScaleShift (scale shift : ℚ × ℚ) (p : ℚ × ℚ) : ℚ × ℚ :=
  ((p.1 + shift.1) * scale.1, (p.2 + shift.2) * scale.2)

/-- The accumulation loop of `IJcurve_to_IJfunction`: walk the sorted
points keeping the current row `spin` and its column values `val`; a group
is flushed only when the row changes, so the loop ends with the final
group still unflushed, exactly as in the source. -/
def IJfunc_loop : List (ℚ × ℚ) → ℚ → List ℚ → List (ℚ × ℚ) → List (ℚ × ℚ)
  | [], _, _, acc => acc.reverse
  | (I, J) :: rest, spin, val, acc =>
      if I = spin then IJfunc_loop rest spin (val ++ [J]) acc
      else IJfunc_loop rest I [J] ((spin, mean val) :: acc)

/-- `function.IJcurve_to_IJfunction(curve)`: sort the `(I, J)` points by
`I` (`np.argsort`; ties only permute columns within a row, which the mean
ignores, so a stable sort is a faithful model) and average the column
values per row.  `none` models the IndexError `Isort[0]` raises on an
empty curve. -/
def IJcurve_to_IJfunction (curve : List (ℚ × ℚ)) : Option (List (ℚ × ℚ)) :=
  match curve.insertionSort (fun a b => a.1 ≤ b.1) with
  | [] => none
  | (I0, J0) :: rest => some (IJfunc_loop rest I0 [J0] [])

/-! ### detect.py: glyph grouping -/

/-- A tick or glyph: its list of pixel coordinates. -/
abbrev Obj := List (Int × Int)

/-- `detect.obj_edge_dist(A, B)`: the minimum over all pairs of the squared
Euclidean pixel distance (`np.min` flattens the `B × A` matrix). -/
def obj_edge_dist (A B : Obj) : Int :=
  npmin ((B.map (fun b => A.map (fun a => (a.1 - b.1) ^ 2 + (a.2 - b.2) ^ 2))).flatten)

/-- The inner minimum of `group_ticks`' second phase: the `None`-initialised
running minimum over a group's members equals `npmin` over the mapped
distances for the nonempty groups that occur. -/
def group_dist (group : List Obj) (digit : Obj) : Int :=
  npmin (group.map (fun g => obj_edge_dist g digit))

/-- Phase one of `group_ticks`: give each tick, in order, its closest
remaining digit (`np.argmin` of the pairwise distances, first minimum on
ties), popping it from the pool.  `none` models the `np.argmin` error when
the pool runs dry with ticks still unserved. -/
def assign_first : List Obj → List Obj → Option (List (List Obj) × List Obj)
  | [], digits => some ([], digits)
  | t :: ts, digits =>
      if digits.isEmpty then none
      else
        let dists := digits.map (fun d => obj_edge_dist t d)
        let mid := npargmin dists
        do
          let (gs, rem) ← assign_first ts (digits.eraseIdx mid)
          pure (([t, digits.getD mid []]) :: gs, rem)

/-- `groups[mid].append(d)`. -/
def appendAt (groups : List (List Obj)) (mid : Nat) (d : Obj) : List (List Obj) :=
  groups.set mid ((groups.getD mid []) ++ [d])

/-- One `for i, digit in enumerate(digits)` pass of `group_ticks`' second
phase, over a list that shrinks as it is iterated: the iterator at
position `k` stops once `k` reaches the current length; the distances are
computed for `digits[k]` of the current list, but the digit appended to
the chosen group is `digits.pop(0)` — the front of the pool, not the digit
measured. -/
def assign_pass : List (List Obj) → List Obj → Nat → List (List Obj) × List Obj
  | groups, [], _ => (groups, [])
  | groups, d0 :: rest, k =>
      if k < (d0 :: rest).length then
        let digit := (d0 :: rest).getD k []
        let dists := (groups.map (fun g => group_dist g digit))
        let mid := npargmin dists
        assign_pass (appendAt groups mid d0) rest (k + 1)
      else (groups, d0 :: rest)

/-- The `while assignments < Ndigits` loop of `group_ticks`: since every
pop increments `assignments` once, the condition is exactly "the pool is
nonempty".  Each pass over a nonempty pool pops at least one digit, so a
fuel of the pool's size bounds the number of passes; the fuel-exhausted
branch is unreachable at the call below. -/
def assign_rest : Nat → List (List Obj) → List Obj → List (List Obj)
  | _, groups, [] => groups
  | 0, groups, _ => groups
  | fuel + 1, groups, d0 :: rest =>
      let (gs, ds) := assign_pass groups (d0 :: rest) 0
      assign_rest fuel gs ds

/-- `detect.group_ticks(ticks, digits)`: phase one gives each tick its
closest digit, phase two drains the remaining pool into the groups. -/
def group_ticks (ticks digits : List Obj) : Option (List (List Obj)) := do
  let (groups, rem) ← assign_first ticks digits
  pure (assign_rest rem.length groups rem)

/-! ### 2-D array access (numpy semantics) and make_square -/

/-- numpy element read `pic[i, j]` on a 2-D array of logical size
`len(pic) × len(pic[0])`.  With `checked := true` only canonical indices
`0 ≤ i < n`, `0 ≤ j < m` succeed; with `checked := false` (Python
semantics) a negative index down to `-n`/`-m` wraps around once.  Anything
else is an IndexError (`none`). -/
def npGet (checked : Bool) (pic : List (List Int)) (i j : Int) : Option Int :=
  let n : Int := pic.length
  let m : Int := (pic.headD []).length
  if 0 ≤ i ∧ i < n ∧ 0 ≤ j ∧ j < m then
    some ((pic.getD i.toNat []).getD j.toNat 0)
  else if (!checked) ∧ -n ≤ i ∧ i < n ∧ -m ≤ j ∧ j < m then
    some ((pic.getD (if i < 0 then i + n else i).toNat []).getD
      (if j < 0 then j + m else j).toNat 0)
  else none

/-- numpy element write `pic[i, j] = v`, with the same index semantics as
`npGet`. -/
def npSet (checked : Bool) (pic : List (List Int)) (i j : Int) (v : Int) :
    Option (List (List Int)) :=
  let n : Int := pic.length
  let m : Int := (pic.headD []).length
  if 0 ≤ i ∧ i < n ∧ 0 ≤ j ∧ j < m then
    some (pic.set i.toNat ((pic.getD i.toNat []).set j.toNat v))
  else if (!checked) ∧ -n ≤ i ∧ i < n ∧ -m ≤ j ∧ j < m then
    let i' := (if i < 0 then i + n else i).toNat
    let j' := (if j < 0 then j + m else j).toNat
    some (pic.set i' ((pic.getD i' []).set j' v))
  else none

/-- `detect.make_square(digit)`: translate the glyph to start at `(0, 0)`,
allocate a `(N_max + 2·shift)`-sided square of zeros and write a `1` at
each translated pixel, offset by `delta = int((J_max - I_max)/2)` along
the row axis when `delta > 0` and along the column axis when `delta < 0`.
Python's `int()` on the float quotient truncates toward zero, `Int.tdiv`
here.  Writes use Python index semantics (negative wrap-around), and
`none` models both the IndexError of a write past `-side` and the
`np.min` error on an empty glyph. -/
def make_square (digit : List (Int × Int)) : Option (List (List Int)) :=
  match digit with
  | [] => none
  | _ =>
    let Imin := npmin (digit.map Prod.fst)
    let Jmin := npmin (digit.map Prod.snd)
    let dig := digit.map (fun p => (p.1 - Imin, p.2 - Jmin))
    let Imax := npmax (dig.map Prod.fst)
    let Jmax := npmax (dig.map Prod.snd)
    let Nmax := max (Imax + 1) (Jmax + 1)
    let shift := Int.tdiv Nmax 8
    let delta := Int.tdiv (Jmax - Imax) 2
    let side := (Nmax + shift * 2).toNat
    let arr0 : List (List Int) := List.replicate side (List.replicate side 0)
    dig.foldlM (fun arr p =>
      if 0 < delta then npSet false arr (p.1 + shift + delta) (p.2 + shift) 1
      else if delta < 0 then npSet false arr (p.1 + shift) (p.2 + shift + delta) 1
      else npSet false arr (p.1 + shift) (p.2 + shift) 1) arr0

/-! ### function.py: Fourier reconstruction -/

/-- One entry `np.exp(-1j * 2 * np.pi / P * i * j)` of a DFT basis matrix,
at (possibly fractional) sample position `i` and frequency index `j`. -/
noncomputable def cexpTerm (P : Nat) (i : ℚ) (j : Int) : ℂ :=
  Complex.exp (-Complex.I * 2 * (Real.pi : ℂ) / (P : ℂ) * (i : ℂ) * (j : ℂ))

/-- `X = np.matmul(F, x)` for the `(2·Nc) × P` basis matrix `F` over the
frequency indices `range(-Nc, Nc)`: the truncated DFT coefficients. -/
noncomputable def dft_coeffs (x : List ℂ) (Nc : Int) : List ℂ :=
  let P := x.length
  (rangeZ (-Nc) Nc).map (fun j =>
    (List.zipWith (fun (i : Nat) xi => cexpTerm P (i : ℚ) j * xi) (List.range P) x).sum)

/-- `1/P * np.matmul(X, np.conj(Fsample))` with the sampling basis matrix
evaluated at the positions `ts`: entry `k` is
`(1/P) * Σ_j X[j] * conj(Fsample[j, k])`, written here with the transpose
unrolled so the result has one entry per sample position. -/
noncomputable def dft_reconstruct (P : Nat) (Nc : Int) (X : List ℂ) (ts : List ℚ) : List ℂ :=
  ts.map (fun t =>
    (1 / (P : ℂ)) * (List.zipWith (fun Xj j => Xj * (starRingEnd ℂ) (cexpTerm P t j))
      X (rangeZ (-Nc) Nc)).sum)

/-- Python slice `l[a:-b]`.  For `b = 0` the stop index `-0` is `0`, so the
slice is empty; for `b ≥ 1` it keeps indices `a .. len - b - 1`. -/
def pySliceTrim {α : Type} (a b : Nat) (l : List α) : List α :=
  if b = 0 then [] else (l.take (l.length - b)).drop a

/-- `function.nogibbsdftsample(x, Nc, Nis, Nos)`: extend `x` linearly on
each side by `extra = int(0.2 * len(x))` points between the midpoint of
`(x[-1], x[0])` and the respective endpoint, take the truncated DFT of the
extension, resample it at `Nos + 2 * extra_sample` evenly spaced positions
over `[0, len(x_extended)]` (`extra_sample = int(0.2 * Nos)`), slice away
`[extra_sample:-extra_sample]`, and pair with `Nos` evenly spaced output
positions over `[Nis[0], Nis[-1]]`.  `int(n * 0.2)` equals `⌊n/5⌋` exactly
over rationals, and `none` models the IndexError of `x[-1]`/`Nis[-1]` on
empty input. -/
noncomputable def nogibbsdftsample (x : List ℂ) (Nc : Int) (Nis : List ℚ) (Nos : Nat) :
    Option (List ℚ × List ℂ) :=
  if x.isEmpty ∨ Nis.isEmpty then none
  else
    let P := x.length
    let extra := (⌊(P : ℚ) * 0.2⌋).toNat
    let mid := (x.getLastD 0 + x.headD 0) / 2
    let xleftextra := linspace mid (x.headD 0) extra
    let xrightextra := linspace (x.getLastD 0) mid extra
    let x_extended := xleftextra ++ x ++ xrightextra
    let P_extended := x_extended.length
    let X := dft_coeffs x_extended Nc
    let extra_sample := (⌊(Nos : ℚ) * 0.2⌋).toNat
    let Nsample_extended := linspace (0 : ℚ) (P_extended : ℚ) (Nos + 2 * extra_sample)
    let x_extended_subsampled := dft_reconstruct P_extended Nc X Nsample_extended
    let Noutputpoints := linspace (Nis.headD 0) (Nis.getLastD 0) Nos
    some (Noutputpoints, pySliceTrim extra_sample extra_sample x_extended_subsampled)

/-! ### detect.py: flood fill (remove_tick / grow_and_remove_number) -/

/-- The eight neighbour coordinates tested by the flood fills, in source
order. -/
def testids (p : Int × Int) : List (Int × Int) :=
  [(p.1 + 1, p.2 + 1), (p.1 + 1, p.2), (p.1 + 1, p.2 - 1), (p.1, p.2 + 1), (p.1, p.2 - 1),
   (p.1 - 1, p.2 + 1), (p.1 - 1, p.2), (p.1 - 1, p.2 - 1)]

/-- `for one in ones: pic[one] = 0`. -/
def clearOnes (checked : Bool) : List (List Int) → List (Int × Int) → Option (List (List Int))
  | pic, [] => some pic
  | pic, p :: ps => do
      let pic' ← npSet checked pic p.1 p.2 0
      clearOnes checked pic' ps

/-- `for tid in testids: if pic[tid] == 1: new_ones.append(tid)`: keep, in
order, the tested coordinates whose mask value is `1`; a failed read is an
IndexError. -/
def scanNeighbors (checked : Bool) (pic : List (List Int)) :
    List (Int × Int) → Option (List (Int × Int))
  | [] => some []
  | t :: ts => do
      let v ← npGet checked pic t.1 t.2
      let rest ← scanNeighbors checked pic ts
      pure (if v = 1 then t :: rest else rest)

/-- The neighbours of one frontier pixel whose mask value is `1`. -/
def newOnesOf (checked : Bool) (pic : List (List Int)) (p : Int × Int) :
    Option (List (Int × Int)) :=
  scanNeighbors checked pic (testids p)

/-- `new_ones`: for each frontier pixel, in order, every 8-neighbour whose
value is still `1`. -/
def collectNew (checked : Bool) (pic : List (List Int)) :
    List (Int × Int) → Option (List (Int × Int))
  | [] => some []
  | p :: ps => do
      let here ← newOnesOf checked pic p
      let rest ← collectNew checked pic ps
      pure (here ++ rest)

/-- The `while not done` loop shared verbatim by `remove_tick` and
`grow_and_remove_number`: clear the frontier, record its coordinates,
gather the still-set 8-neighbours, deduplicate (Python's `set(...)`
enumeration order is unspecified; `List.dedup` is one duplicate-free
enumeration of it), and repeat until the frontier is empty.  Each
iteration clears a nonempty frontier of set pixels, so a fuel of the
mask's total count of ones (plus slack) bounds the iterations; `none` is
an IndexError or exhausted fuel. -/
def flood_loop (checked : Bool) : Nat → List (List Int) → List (Int × Int) →
    List (Int × Int) → Option (List (List Int) × List (Int × Int))
  | 0, _, _, _ => none
  | fuel + 1, pic, ones, acc => do
      let pic1 ← clearOnes checked pic ones
      let acc1 := acc ++ ones
      let newOnes ← collectNew checked pic1 ones
      let ones1 := newOnes.dedup
      if ones1.isEmpty then pure (pic1, acc1)
      else flood_loop checked fuel pic1 ones1 acc1

/-- Count of pixels set to `1` in a mask. -/
def onesCount (pic : List (List Int)) : Nat :=
  (pic.map (fun row => row.countP (fun v => v = 1))).sum

/-- `detect.remove_tick(pic, J, I)`: flood fill seeded at `[[I, J]]`. -/
def remove_tick (checked : Bool) (pic : List (List Int)) (J I : Int) :
    Option (List (List Int) × List (Int × Int)) :=
  flood_loop checked (onesCount pic + 2) pic [(I, J)] []

/-- `detect.grow_and_remove_number(pic, startone)`: the same flood fill,
seeded at `startone`. -/
def grow_and_remove_number (checked : Bool) (pic : List (List Int)) (startone : Int × Int) :
    Option (List (List Int) × List (Int × Int)) :=
  flood_loop checked (onesCount pic + 2) pic [(startone.1, startone.2)] []

/-! ### Specification-side notions for the flood-fill claim -/

/-- Canonical in-bounds condition for a 2-D access at `p`. -/
def inb (pic : List (List Int)) (p : Int × Int) : Prop :=
  0 ≤ p.1 ∧ p.1 < (pic.length : Int) ∧ 0 ≤ p.2 ∧ p.2 < ((pic.headD []).length : Int)

/-- `p` is a set pixel of the mask: the canonical (non-wrapping) read at
`p` yields `1`; in particular `p` is in bounds. -/
def isOne (pic : List (List Int)) (p : Int × Int) : Prop :=
  npGet true pic p.1 p.2 = some 1

/-- 8-adjacency of two distinct pixels: each coordinate differs by at most
one. -/
def adj8 (p q : Int × Int) : Prop :=
  p ≠ q ∧ -1 ≤ p.1 - q.1 ∧ p.1 - q.1 ≤ 1 ∧ -1 ≤ p.2 - q.2 ∧ p.2 - q.2 ≤ 1

/-- The 8-connected component of `1`-pixels reachable from the seed `s`
(the seed itself is a member by reflexivity; theorems additionally assume
`isOne pic s`). -/
def comp8 (pic : List (List Int)) (s : Int × Int) : Set (Int × Int) :=
  {p | Relation.ReflTransGen (fun u v => adj8 u v ∧ isOne pic u ∧ isOne pic v) s p}

/-- `p` touches the mask's first or last row or column. -/
def onBorder (pic : List (List Int)) (p : Int × Int) : Prop :=
  p.1 = 0 ∨ p.1 = (pic.length : Int) - 1 ∨ p.2 = 0 ∨ p.2 = ((pic.headD []).length : Int) - 1

/-- The row-length profile of a mask; preserved by every write. -/
def shape (pic : List (List Int)) : List Nat := pic.map List.length

/-- A mask is rectangular: every row has the width of the first. -/
def Rect (pic : List (List Int)) : Prop :=
  ∀ r ∈ pic, r.length = (pic.headD []).length

/-! ### Helper lemmas -/

theorem detect_flag_false_iff (v : List Int) (L : Nat) :
    detect_flag v L = false ↔ ∃ m, detect_line v L = some (false, m) := by
  unfold detect_flag
  cases h : detect_line v L with
  | none => simp
  | some p =>
      cases p with
      | mk fst snd => cases fst <;> simp

theorem scanAxesAux_all_false (L : Nat) (rows : List (List Int))
    (h : ∀ r ∈ rows, detect_flag r L = false) :
    ∀ i, scanAxesAux L rows i = some [] := by
  induction rows with
  | nil => intro i; rfl
  | cons r rs ih =>
      intro i
      obtain ⟨m, hm⟩ := (detect_flag_false_iff r L).mp (h r (List.mem_cons_self r rs))
      have hrest := ih (fun x hx => h x (List.mem_cons_of_mem r hx)) (i + 1)
      simp [scanAxesAux, hm, hrest]

theorem npargmaxAux_cases (as : List Int) :
    ∀ best bestVal cur, npargmaxAux as best bestVal cur = best ∨
      (cur ≤ npargmaxAux as best bestVal cur ∧
        npargmaxAux as best bestVal cur < cur + as.length) := by
  induction as with
  | nil => intro best bestVal cur; left; rfl
  | cons a as ih =>
      intro best bestVal cur
      simp only [npargmaxAux]
      by_cases h : bestVal < a
      · simp only [if_pos h]
        rcases ih cur a (cur + 1) with h1 | h1
        · right
          simp only [List.length_cons]
          omega
        · right
          simp only [List.length_cons]
          omega
      · simp only [if_neg h]
        rcases ih best bestVal (cur + 1) with h1 | h1
        · left; exact h1
        · right
          simp only [List.length_cons]
          omega

theorem npargmax_lt_length (l : List Int) (h : l ≠ []) : npargmax l < l.length := by
  cases l with
  | nil => exact absurd rfl h
  | cons a as =>
      simp only [npargmax, List.length_cons]
      rcases npargmaxAux_cases as 0 a 1 with h1 | h1
      · omega
      · omega

theorem scanAxesAux_idx_lt (L : Nat) (rows : List (List Int)) :
    ∀ i ps, scanAxesAux L rows i = some ps → ∀ p ∈ ps, p.1 < i + rows.length := by
  induction rows with
  | nil =>
      intro i ps h p hp
      simp only [scanAxesAux] at h
      cases h
      simp at hp
  | cons r rs ih =>
      intro i ps h p hp
      simp only [scanAxesAux, Option.bind_eq_bind, Option.bind_eq_some] at h
      obtain ⟨⟨det, maxL⟩, hd, h⟩ := h
      obtain ⟨rest, hrest, h⟩ := h
      cases h
      have hr := ih (i + 1) rest hrest
      by_cases hdet : det = true
      · subst hdet
        simp only [if_pos rfl] at hp
        rcases List.mem_cons.mp hp with h | h
        · subst h; simp only [List.length_cons]; omega
        · have := hr p h; simp only [List.length_cons]; omega
      · simp only [Bool.not_eq_true] at hdet; subst hdet
        simp only [Bool.false_eq_true, if_false] at hp
        have := hr p hp; simp only [List.length_cons]; omega

theorem getD_mem_of_lt {α : Type} (l : List α) (n : Nat) (d : α) (h : n < l.length) :
    l.getD n d ∈ l := by
  rw [List.getD_eq_getElem l d h]
  exact List.getElem_mem h

theorem npdiff_cons_cons (x y : Int) (l : List Int) :
    npdiff (x :: y :: l) = (y - x) :: npdiff (y :: l) := rfl

theorem npdiff_singleton (x : Int) : npdiff [x] = [] := rfl

theorem npdiff_replicate_append (x : Int) (n : Nat) (l : List Int) :
    npdiff (List.replicate (n + 1) x ++ l) = List.replicate n 0 ++ npdiff (x :: l) := by
  induction n with
  | zero => simp [List.replicate]
  | succ n ih =>
      have h1 : List.replicate (n + 2) x ++ l = x :: (List.replicate (n + 1) x ++ l) := by
        simp [List.replicate_succ]
      have h2 : List.replicate (n + 1) x ++ l = x :: (List.replicate n x ++ l) := by
        simp [List.replicate_succ]
      rw [h1, h2, npdiff_cons_cons, ← h2, ih]
      simp [List.replicate_succ]

theorem idxWhere_append (x : Int) (l1 l2 : List Int) :
    ∀ i, idxWhere x (l1 ++ l2) i = idxWhere x l1 i ++ idxWhere x l2 (i + l1.length) := by
  induction l1 with
  | nil => intro i; simp [idxWhere]
  | cons a as ih =>
      intro i
      have harith : i + 1 + as.length = i + (a :: as).length := by
        simp only [List.length_cons]
        omega
      by_cases h : a = x
      · simp only [List.cons_append, idxWhere, if_pos h, List.append_eq]
        rw [ih (i + 1), harith]
      · simp only [List.cons_append, idxWhere, if_neg h, List.append_eq]
        rw [ih (i + 1), harith]

theorem idxWhere_replicate_ne (x y : Int) (h : y ≠ x) (n : Nat) :
    ∀ i, idxWhere x (List.replicate n y) i = [] := by
  induction n with
  | zero => intro i; rfl
  | succ n ih =>
      intro i
      simp only [List.replicate_succ, idxWhere, if_neg h]
      exact ih (i + 1)

theorem idxWhere_cons_eq (x : Int) (l : List Int) (i : Nat) :
    idxWhere x (x :: l) i = i :: idxWhere x l (i + 1) := by
  simp [idxWhere]

theorem idxWhere_cons_ne (x y : Int) (h : y ≠ x) (l : List Int) (i : Nat) :
    idxWhere x (y :: l) i = idxWhere x l (i + 1) := by
  simp [idxWhere, h]

theorem linspace_length {α : Type} [Field α] (a b : α) (n : Nat) :
    (linspace a b n).length = n := by
  rw [linspace, List.length_map, List.length_range]

/-! ### Claim theorems -/

/-- Claim C1.  The claim says `IJcurve_to_IJfunction` returns one
(row, mean column) pair for each distinct row of a non-empty curve.  The
accumulation loop only flushes a row group when the row value changes, so
the final group is never emitted: on the curve `[(0, 1), (1, 3)]` the
output is `[(0, 1)]` alone — the pair for the last distinct row `1` is
missing (the second conjunct: no output pair has row `1`), contradicting
the claim and the function's own docstring. -/
theorem IJcurve_to_IJfunction_drops_last_row :
    IJcurve_to_IJfunction [(0, 1), (1, 3)] = some [(0, 1)] ∧
    ∀ p ∈ [((0 : ℚ), (1 : ℚ))], p.1 ≠ 1 := by
  constructor
  · norm_num [IJcurve_to_IJfunction, IJfunc_loop, mean, List.insertionSort, List.orderedInsert]
  · intro p hp
    simp only [List.mem_singleton] at hp
    subst hp
    norm_num

/-- Claim C2.  The claim says a lone tick whose numeric value is 0 must
raise the fatal lone-zero-tick error.  The code instead asserts that the
lone tick's pixel coordinate (`ixticks[0][0]`) is nonzero, not its value
(`ixticks[0][1]`): with the single x-tick `(pixel 5, value 0)` the
function raises nothing and returns a zero x-scale (in floats the shift
becomes NaN; over exact rationals with `q / 0 = 0` the shift is 0). -/
theorem get_scaleandshift_lone_zero_value_tick_no_error :
    get_scaleandshift_IJtoXY [(5, 0)] [(7, 3)] (0, 0) = some ((0, 3 / 7), (0, 0)) := by
  norm_num [get_scaleandshift_IJtoXY]

/-- Claim C3.  The claim says every glyph left after phase one is assigned
to the group with the minimum closest-pixel distance to that same glyph.
Phase two computes the distances for `digits[i]` of the shrinking pool but
appends `digits.pop(0)`: with ticks at rows 0 and 100 and glyphs at rows
1, 101, 2, 3, 102, the glyph `(3, 0)` — strictly closer to the first
group (second conjunct) — is appended to the second group, because the
distances that placed it were computed for `(102, 0)`. -/
theorem group_ticks_pop_front_misassigns :
    group_ticks [[(0, 0)], [(100, 0)]]
      [[(1, 0)], [(101, 0)], [(2, 0)], [(3, 0)], [(102, 0)]]
      = some [[[(0, 0)], [(1, 0)], [(2, 0)]],
              [[(100, 0)], [(101, 0)], [(3, 0)], [(102, 0)]]] ∧
    group_dist [[(0, 0)], [(1, 0)], [(2, 0)]] [(3, 0)]
      < group_dist [[(100, 0)], [(101, 0)], [(102, 0)]] [(3, 0)] := by
  constructor
  · decide
  · decide

/-- Claim C4.  The claim says `make_square` centers the shorter dimension
and every pixel lands at a valid in-bounds position offset toward the
canvas center.  For a tall glyph (`delta < 0`) the code adds the negative
`delta` to the column index instead of subtracting it: the 3×1 glyph
`[(0,0),(1,0),(2,0)]` has `delta = -1`, every write goes to column `-1`,
and numpy's wrap-around puts the stroke in the last column `2` instead of
the center column `1`. -/
theorem make_square_tall_glyph_wraps_left :
    make_square [(0, 0), (1, 0), (2, 0)] = some [[0, 0, 1], [0, 0, 1], [0, 0, 1]] := by
  decide

/-- Claim C5, counterexample.  The claim asserts both components of every
`detect_axes` result are strictly inside the mask bounds.  On the all-zero
1×1 mask the fallback result is `(1, 0)` whose first component equals the
height `1` and is not `< 1`. -/
theorem detect_axes_fallback_out_of_bounds :
    detect_axes [[0]] (1 / 10) = some (1, 0) ∧
    ¬(1 < ([[(0 : Int)]] : List (List Int)).length) := by
  constructor
  · simp only [detect_axes]
    norm_num [scanAxesAux, detect_line, npdiff, idxWhere, column]
  · simp

/-- Claim C5, amended.  For every nonempty mask and threshold fraction, a
returned pair `(a, b)` has `b` a valid row index (`b < height`), and `a`
either a valid column index (`a < width`, when a vertical-axis candidate
was detected) or exactly the height (the bottom-left fallback, one past
the last row).  The claim's bound `a < height ∧ b < width` fails both for
the fallback and because it pairs the components with the wrong
dimensions. -/
theorem detect_axes_index_bounds (pic : List (List Int)) (q : ℚ) (a b : Nat)
    (hne : pic ≠ []) (h : detect_axes pic q = some (a, b)) :
    (a = pic.length ∨ a < (pic.headD []).length) ∧ b < pic.length := by
  simp only [detect_axes, Option.bind_eq_bind, Option.bind_eq_some] at h
  obtain ⟨possJ, hJ, h⟩ := h
  obtain ⟨possI, hI, h⟩ := h
  rw [Option.pure_def, Option.some_inj] at h
  have hIset : ∀ p ∈ possI, p.1 < (pic.headD []).length := by
    intro p hp
    have := scanAxesAux_idx_lt _ _ 0 possI hI p hp
    simpa using this
  have hJset : ∀ p ∈ possJ, p.1 < pic.length := by
    intro p hp
    have := scanAxesAux_idx_lt _ _ 0 possJ hJ p hp
    simpa using this
  have ha : a = (if possI.isEmpty then pic.length
      else (possI.map Prod.fst).getD (npargmax (possI.map Prod.snd)) 0) :=
    (congrArg Prod.fst h).symm
  have hb : b = (if possJ.isEmpty then 0
      else (possJ.map Prod.fst).getD (npargmax (possJ.map Prod.snd)) 0) :=
    (congrArg Prod.snd h).symm
  constructor
  · by_cases hemp : possI.isEmpty
    · left; rw [ha, if_pos hemp]
    · right
      rw [ha, if_neg hemp]
      have hne2 : possI ≠ [] := by
        intro hcontra; rw [hcontra] at hemp; exact hemp rfl
      have hlt : npargmax (possI.map Prod.snd) < (possI.map Prod.fst).length := by
        have := npargmax_lt_length (possI.map Prod.snd) (by simpa using hne2)
        simpa using this
      have hmem := getD_mem_of_lt (possI.map Prod.fst) (npargmax (possI.map Prod.snd)) 0 hlt
      obtain ⟨p, hp, hpe⟩ := List.mem_map.mp hmem
      rw [← hpe]
      exact hIset p hp
  · by_cases hemp : possJ.isEmpty
    · rw [hb, if_pos hemp]
      exact List.length_pos.mpr hne
    · rw [hb, if_neg hemp]
      have hne2 : possJ ≠ [] := by
        intro hcontra; rw [hcontra] at hemp; exact hemp rfl
      have hlt : npargmax (possJ.map Prod.snd) < (possJ.map Prod.fst).length := by
        have := npargmax_lt_length (possJ.map Prod.snd) (by simpa using hne2)
        simpa using this
      have hmem := getD_mem_of_lt (possJ.map Prod.fst) (npargmax (possJ.map Prod.snd)) 0 hlt
      obtain ⟨p, hp, hpe⟩ := List.mem_map.mp hmem
      rw [← hpe]
      exact hJset p hp

/-- Witness for the amended C5 bound, at the all-zero 1×1 mask. -/
theorem detect_axes_index_bounds_witness :
    ([[(0 : Int)]] : List (List Int)) ≠ [] ∧
    ((1 = ([[(0 : Int)]] : List (List Int)).length ∨
      1 < (([[(0 : Int)]] : List (List Int)).headD []).length) ∧
      0 < ([[(0 : Int)]] : List (List Int)).length) := by
  refine ⟨by decide, ?_⟩
  refine detect_axes_index_bounds [[0]] (1 / 10) 1 0 (by decide) ?_
  simp only [detect_axes]
  norm_num [scanAxesAux, detect_line, npdiff, idxWhere, column]

/-- Claim C6.  When no row and no column passes the minimum-axis-length
threshold (`detect_flag` is `false` everywhere, which also certifies the
length assert holds), `detect_axes` raises nothing and returns the
bottom-left corner `(height, 0)`. -/
theorem detect_axes_fallback_bottom_left (pic : List (List Int)) (q : ℚ)
    (hrow : ∀ r ∈ pic, detect_flag r ((⌊q * (((pic.headD []).length : ℚ))⌋).toNat) = false)
    (hcol : ∀ c ∈ (List.range (pic.headD []).length).map (column pic),
      detect_flag c ((⌊q * ((pic.length : ℚ))⌋).toNat) = false) :
    detect_axes pic q = some (pic.length, 0) := by
  simp only [detect_axes]
  rw [scanAxesAux_all_false _ _ hrow 0, scanAxesAux_all_false _ _ hcol 0]
  rfl

/-- Witness for C6, at the all-zero 2×2 mask with the default threshold
fraction 0.1. -/
theorem detect_axes_fallback_bottom_left_witness :
    (∀ r ∈ ([[0, 0], [0, 0]] : List (List Int)), detect_flag r 0 = false) ∧
    detect_axes [[0, 0], [0, 0]] (1 / 10) = some (2, 0) := by
  constructor
  · intro r hr
    fin_cases hr <;> decide
  · have := detect_axes_fallback_bottom_left [[0, 0], [0, 0]] (1 / 10)
      (by
        intro r hr
        have h0 : ((⌊(1 / 10 : ℚ) *
            ((([[0, 0], [0, 0]] : List (List Int)).headD []).length : ℚ)⌋).toNat) = 0 := by
          norm_num
        rw [h0]
        fin_cases hr <;> decide)
      (by
        intro c hc
        have h0 : ((⌊(1 / 10 : ℚ) *
            ((([[0, 0], [0, 0]] : List (List Int)).length : ℚ))⌋).toNat) = 0 := by
          norm_num
        rw [h0]
        have hcols : (List.range (([[0, 0], [0, 0]] : List (List Int)).headD []).length).map
            (column [[0, 0], [0, 0]]) = [[0, 0], [0, 0]] := by decide
        rw [hcols] at hc
        fin_cases hc <;> decide)
    simpa using this

/-- Claim C7, counterexample.  With two x-ticks at distinct pixel
positions 0 and 1 but the same data value 5, the x-scale degenerates to 0
and the affine map sends the first tick's pixel position to x-value 0, not
5 (in floats the shift is infinite and the product NaN; either way the
tick value is not reproduced), so distinct pixel positions alone do not
suffice for the claimed round trip. -/
theorem affine_roundtrip_equal_values_fails :
    get_scaleandshift_IJtoXY [(0, 5), (1, 5)] [(0, 1), (1, 2)] (0, 0)
      = some ((0, 1), (-1, 1)) ∧
    applyScaleShift (0, 1) (-1, 1) (0, 0) = (0, 1) ∧ (0 : ℚ) ≠ 5 := by
  refine ⟨?_, ?_, by norm_num⟩
  · norm_num [get_scaleandshift_IJtoXY]
  · norm_num [applyScaleShift]

/-- Claim C7, amended.  With exactly two ticks per axis whose pixel
positions are distinct and whose data values are distinct, the map
`xy = scale · (ij + shift)` built by `get_scaleandshift_IJtoXY` reproduces
both ticks' data values exactly over the rationals. -/
theorem affine_roundtrip_two_ticks (p1 v1 p2 v2 q1 w1 q2 w2 aI aJ : ℚ)
    (hp : p1 ≠ p2) (hv : v1 ≠ v2) (hq : q1 ≠ q2) (hw : w1 ≠ w2) :
    ∃ sc sh,
      get_scaleandshift_IJtoXY [(p1, v1), (p2, v2)] [(q1, w1), (q2, w2)] (aI, aJ)
        = some (sc, sh) ∧
      applyScaleShift sc sh (p1, q1) = (v1, w1) ∧
      applyScaleShift sc sh (p2, q2) = (v2, w2) := by
  refine ⟨((v2 - v1) / (p2 - p1), (w2 - w1) / (q2 - q1)),
      (-(-v2 / ((v2 - v1) / (p2 - p1)) + p2), -(-w2 / ((w2 - w1) / (q2 - q1)) + q2)),
      ?_, ?_, ?_⟩
  · norm_num [get_scaleandshift_IJtoXY]
  · have h1 : p2 - p1 ≠ 0 := sub_ne_zero.mpr (Ne.symm hp)
    have h2 : v2 - v1 ≠ 0 := sub_ne_zero.mpr (Ne.symm hv)
    have h3 : q2 - q1 ≠ 0 := sub_ne_zero.mpr (Ne.symm hq)
    have h4 : w2 - w1 ≠ 0 := sub_ne_zero.mpr (Ne.symm hw)
    simp only [applyScaleShift, Prod.mk.injEq]
    constructor <;> (field_simp; try ring)
  · have h1 : p2 - p1 ≠ 0 := sub_ne_zero.mpr (Ne.symm hp)
    have h2 : v2 - v1 ≠ 0 := sub_ne_zero.mpr (Ne.symm hv)
    have h3 : q2 - q1 ≠ 0 := sub_ne_zero.mpr (Ne.symm hq)
    have h4 : w2 - w1 ≠ 0 := sub_ne_zero.mpr (Ne.symm hw)
    simp only [applyScaleShift, Prod.mk.injEq]
    constructor <;> (field_simp; try ring)

/-- Witness for the amended C7 round trip: x-ticks (0 ↦ 0, 1 ↦ 10),
y-ticks (0 ↦ 0, 1 ↦ 5). -/
theorem affine_roundtrip_two_ticks_witness :
    (0 : ℚ) ≠ 1 ∧ (0 : ℚ) ≠ 10 ∧ (0 : ℚ) ≠ 5 ∧
    ∃ sc sh,
      get_scaleandshift_IJtoXY [(0, 0), (1, 10)] [(0, 0), (1, 5)] (0, 0) = some (sc, sh) ∧
      applyScaleShift sc sh (0, 0) = (0, 0) ∧
      applyScaleShift sc sh (1, 1) = (10, 5) :=
  ⟨by norm_num, by norm_num, by norm_num,
    affine_roundtrip_two_ticks 0 0 1 10 0 0 1 5 0 0
      (by norm_num) (by norm_num) (by norm_num) (by norm_num)⟩

/-- Claim C8.  The claim says `nogibbsdftsample` always returns exactly
`nos` value samples paired with `nos` domain positions.  For `nos = 4` the
discard width is `int(4 * 0.2) = 0` and the Python slice `x[0:-0]` is
empty: the function returns the 4 domain positions of
`linspace Nis[0] Nis[-1] 4` but zero value samples. -/
theorem nogibbsdftsample_small_nos_empty_slice :
    nogibbsdftsample [1, 2, 3] 1 [0, 1] 4 = some (linspace (0 : ℚ) 1 4, []) ∧
    (linspace (0 : ℚ) 1 4).length = 4 ∧ ([] : List ℂ).length = 0 := by
  refine ⟨?_, linspace_length 0 1 4, rfl⟩
  simp only [nogibbsdftsample]
  norm_num [pySliceTrim]

/-- Claim C9.  For a binary vector with exactly one run of 1s, of length
`L ≥ 1`, inside a vector of length `N = a + L + b`, and any threshold
`thr ≤ N`, `detect_line` returns exactly `(L ≥ thr, L)`. -/
theorem detect_line_single_run (a L b thr : Nat) (hL : 1 ≤ L) (hthr : thr ≤ a + L + b) :
    detect_line (List.replicate a 0 ++ List.replicate L 1 ++ List.replicate b 0) thr
      = some (decide ((thr : Int) ≤ (L : Int)), (L : Int)) := by
  obtain ⟨L0, rfl⟩ : ∃ L0, L = L0 + 1 := ⟨L - 1, by omega⟩
  set v : List Int := List.replicate a 0 ++ List.replicate (L0 + 1) 1 ++ List.replicate b 0
    with hv
  have hlen : v.length = a + (L0 + 1) + b := by
    simp only [hv, List.length_append, List.length_replicate]
    try omega
  have hrepb : List.replicate b (0 : Int) ++ [0] = 0 :: List.replicate b 0 := by
    rw [← List.replicate_succ', List.replicate_succ]
  have hv0 : (0 :: (v ++ [0]) : List Int)
      = List.replicate (a + 1) 0 ++ (List.replicate (L0 + 1) 1 ++ List.replicate (b + 1) 0) := by
    rw [hv]
    simp only [List.append_assoc, hrepb]
    simp [List.replicate_succ, List.cons_append, List.append_assoc]
  have hdiff : npdiff (0 :: (v ++ [0]))
      = List.replicate a 0 ++ (1 :: (List.replicate L0 0 ++ ((-1) :: List.replicate b 0))) := by
    rw [hv0, npdiff_replicate_append]
    have h1 : (0 : Int) :: (List.replicate (L0 + 1) 1 ++ List.replicate (b + 1) 0)
        = 0 :: 1 :: (List.replicate L0 1 ++ List.replicate (b + 1) 0) := by
      simp [List.replicate_succ]
    rw [h1, npdiff_cons_cons]
    have h2 : (1 : Int) :: (List.replicate L0 1 ++ List.replicate (b + 1) 0)
        = List.replicate (L0 + 1) 1 ++ List.replicate (b + 1) 0 := by
      simp [List.replicate_succ]
    rw [h2, npdiff_replicate_append]
    have h3 : (1 : Int) :: List.replicate (b + 1) 0
        = 1 :: 0 :: List.replicate b 0 := by
      simp [List.replicate_succ]
    rw [h3, npdiff_cons_cons]
    have h4 : (0 : Int) :: List.replicate b 0 = List.replicate (b + 1) 0 ++ [] := by
      simp [List.replicate_succ]
    rw [h4, npdiff_replicate_append, npdiff_singleton]
    norm_num
  have hstart : idxWhere 1 (npdiff (0 :: (v ++ [0]))) 0 = [a] := by
    rw [hdiff, idxWhere_append, idxWhere_replicate_ne 1 0 (by norm_num),
      idxWhere_cons_eq, idxWhere_append, idxWhere_replicate_ne 1 0 (by norm_num),
      idxWhere_cons_ne 1 (-1) (by norm_num), idxWhere_replicate_ne 1 0 (by norm_num)]
    simp
  have hstop : idxWhere (-1) (npdiff (0 :: (v ++ [0]))) 0 = [a + 1 + L0] := by
    rw [hdiff, idxWhere_append, idxWhere_replicate_ne (-1) 0 (by norm_num),
      idxWhere_cons_ne (-1) 1 (by norm_num), idxWhere_append,
      idxWhere_replicate_ne (-1) 0 (by norm_num), idxWhere_cons_eq,
      idxWhere_replicate_ne (-1) 0 (by norm_num)]
    simp only [List.length_replicate, List.nil_append, List.append_nil]
    norm_num
  have hguard : thr ≤ v.length := by omega
  have harith : ((a + 1 + L0 : Nat) : Int) - ((a : Nat) : Int) = ((L0 + 1 : Nat) : Int) := by
    push_cast; ring
  simp only [detect_line, if_pos hguard, hstart, hstop, List.zipWith_cons_cons,
    List.zipWith_nil_right, npmax, List.foldl_nil, harith]

/-- Witness for C9: the vector `[0, 1, 1, 0]` (one run of length 2) with
threshold 2. -/
theorem detect_line_single_run_witness :
    1 ≤ 2 ∧ 2 ≤ 1 + 2 + 1 ∧ detect_line [0, 1, 1, 0] 2 = some (true, 2) := by
  refine ⟨by norm_num, by norm_num, ?_⟩
  have := detect_line_single_run 1 2 1 2 (by norm_num) (by norm_num)
  simpa using this

/-! ### Flood-fill access lemmas -/

theorem npGet_true_eq (pic : List (List Int)) (p : Int × Int) (h : inb pic p) :
    npGet true pic p.1 p.2 = some ((pic.getD p.1.toNat []).getD p.2.toNat 0) := by
  have hc : 0 ≤ p.1 ∧ p.1 < (pic.length : Int) ∧ 0 ≤ p.2 ∧
      p.2 < ((pic.headD []).length : Int) := h
  simp only [npGet, if_pos hc]

theorem npGet_true_some_iff (pic : List (List Int)) (p : Int × Int) (v : Int) :
    npGet true pic p.1 p.2 = some v ↔
      inb pic p ∧ (pic.getD p.1.toNat []).getD p.2.toNat 0 = v := by
  constructor
  · intro h
    simp only [npGet] at h
    by_cases hc : 0 ≤ p.1 ∧ p.1 < (pic.length : Int) ∧ 0 ≤ p.2 ∧
        p.2 < ((pic.headD []).length : Int)
    · rw [if_pos hc] at h
      exact ⟨hc, Option.some_inj.mp h⟩
    · rw [if_neg hc] at h
      simp only [Bool.not_true, Bool.false_and, false_and, if_false] at h
      cases h
  · rintro ⟨hb, hv⟩
    rw [npGet_true_eq pic p hb, hv]

theorem npGet_false_of_true (pic : List (List Int)) (i j : Int) (v : Int)
    (h : npGet true pic i j = some v) : npGet false pic i j = some v := by
  simp only [npGet] at h ⊢
  by_cases hc : 0 ≤ i ∧ i < (pic.length : Int) ∧ 0 ≤ j ∧ j < ((pic.headD []).length : Int)
  · rwa [if_pos hc] at h ⊢
  · rw [if_neg hc] at h
    simp only [Bool.not_true, Bool.false_and, false_and, if_false] at h
    cases h

theorem npSet_false_of_true (pic : List (List Int)) (i j v : Int) (r : List (List Int))
    (h : npSet true pic i j v = some r) : npSet false pic i j v = some r := by
  simp only [npSet] at h ⊢
  by_cases hc : 0 ≤ i ∧ i < (pic.length : Int) ∧ 0 ≤ j ∧ j < ((pic.headD []).length : Int)
  · rwa [if_pos hc] at h ⊢
  · rw [if_neg hc] at h
    simp only [Bool.not_true, Bool.false_and, false_and, if_false] at h
    cases h

theorem npSet_true_eq (pic : List (List Int)) (p : Int × Int) (v : Int) (h : inb pic p) :
    npSet true pic p.1 p.2 v
      = some (pic.set p.1.toNat ((pic.getD p.1.toNat []).set p.2.toNat v)) := by
  have hc : 0 ≤ p.1 ∧ p.1 < (pic.length : Int) ∧ 0 ≤ p.2 ∧
      p.2 < ((pic.headD []).length : Int) := h
  simp only [npSet, if_pos hc]

theorem npSet_true_some (pic : List (List Int)) (i j v : Int) (r : List (List Int))
    (h : npSet true pic i j v = some r) :
    inb pic (i, j) ∧ r = pic.set i.toNat ((pic.getD i.toNat []).set j.toNat v) := by
  simp only [npSet] at h
  by_cases hc : 0 ≤ i ∧ i < (pic.length : Int) ∧ 0 ≤ j ∧ j < ((pic.headD []).length : Int)
  · rw [if_pos hc] at h
    exact ⟨hc, (Option.some_inj.mp h).symm⟩
  · rw [if_neg hc] at h
    simp only [Bool.not_true, Bool.false_and, false_and, if_false] at h
    cases h

theorem set_preserves_length (pic : List (List Int)) (i : Nat) (row : List Int) :
    (pic.set i row).length = pic.length := List.length_set ..

theorem set_preserves_headD_length (pic : List (List Int)) (i : Nat) (j : Nat) (v : Int) :
    (((pic.set i ((pic.getD i []).set j v)).headD []).length) = ((pic.headD []).length) := by
  cases pic with
  | nil => rfl
  | cons r rs =>
      cases i with
      | zero => simp [List.set]
      | succ n => simp [List.set]

theorem set_preserves_rect (pic : List (List Int)) (i j : Nat) (v : Int) (h : Rect pic) :
    Rect (pic.set i ((pic.getD i []).set j v)) := by
  by_cases hi : i < pic.length
  · intro r hr
    rw [set_preserves_headD_length]
    rcases List.mem_or_eq_of_mem_set hr with h1 | h1
    · exact h r h1
    · subst h1
      rw [List.length_set]
      exact h _ (getD_mem_of_lt pic i [] hi)
  · rw [List.set_eq_of_length_le (by omega)]
    exact h

theorem getD_set_ne {α : Type} (l : List α) (i j : Nat) (a d : α) (h : i ≠ j) :
    (l.set i a).getD j d = l.getD j d := by
  simp [List.getD_eq_getElem?_getD, List.getElem?_set_ne h]

theorem getD_set_self {α : Type} (l : List α) (i : Nat) (a d : α) (h : i < l.length) :
    (l.set i a).getD i d = a := by
  simp [List.getD_eq_getElem?_getD, List.getElem?_set_self, h]

theorem inb_congr (pic pic' : List (List Int)) (q : Int × Int)
    (hl : pic'.length = pic.length) (hh : (pic'.headD []).length = (pic.headD []).length) :
    inb pic' q ↔ inb pic q := by
  unfold inb
  rw [hl, hh]

theorem npGet_set_self (pic : List (List Int)) (p : Int × Int) (v : Int)
    (hR : Rect pic) (hp : inb pic p) :
    npGet true (pic.set p.1.toNat ((pic.getD p.1.toNat []).set p.2.toNat v)) p.1 p.2
      = some v := by
  set pic' := pic.set p.1.toNat ((pic.getD p.1.toNat []).set p.2.toNat v) with hd
  have hl : pic'.length = pic.length := List.length_set ..
  have hh : (pic'.headD []).length = (pic.headD []).length := set_preserves_headD_length ..
  have hp' : inb pic' p := (inb_congr pic pic' p hl hh).mpr hp
  rw [npGet_true_eq pic' p hp']
  obtain ⟨h1, h2, h3, h4⟩ := hp
  have hiN : p.1.toNat < pic.length := by omega
  have hrow : pic'.getD p.1.toNat [] = (pic.getD p.1.toNat []).set p.2.toNat v := by
    rw [hd]
    exact getD_set_self pic p.1.toNat _ [] hiN
  rw [hrow]
  have hrowlen : (pic.getD p.1.toNat []).length = (pic.headD []).length :=
    hR _ (getD_mem_of_lt pic p.1.toNat [] hiN)
  have hjN : p.2.toNat < (pic.getD p.1.toNat []).length := by
    rw [hrowlen]; omega
  rw [getD_set_self _ p.2.toNat v 0 hjN]

theorem npGet_set_ne (pic : List (List Int)) (p q : Int × Int) (v : Int)
    (hp : inb pic p) (hq : q ≠ p) :
    npGet true (pic.set p.1.toNat ((pic.getD p.1.toNat []).set p.2.toNat v)) q.1 q.2
      = npGet true pic q.1 q.2 := by
  set pic' := pic.set p.1.toNat ((pic.getD p.1.toNat []).set p.2.toNat v) with hd
  have hl : pic'.length = pic.length := List.length_set ..
  have hh : (pic'.headD []).length = (pic.headD []).length := set_preserves_headD_length ..
  by_cases hqb : inb pic q
  · have hq' : inb pic' q := (inb_congr pic pic' q hl hh).mpr hqb
    rw [npGet_true_eq pic' q hq', npGet_true_eq pic q hqb]
    by_cases hrow : q.1.toNat = p.1.toNat
    · have hq1 : q.1 = p.1 := by
        obtain ⟨a1, _, _, _⟩ := hp
        obtain ⟨b1, _, _, _⟩ := hqb
        omega
      have hcol : q.2.toNat ≠ p.2.toNat := by
        obtain ⟨_, _, a3, _⟩ := hp
        obtain ⟨_, _, b3, _⟩ := hqb
        have hq2 : q.2 ≠ p.2 := by
          intro hcontra
          exact hq (Prod.ext hq1 hcontra)
        omega
      have hrow' : pic'.getD q.1.toNat [] = (pic.getD p.1.toNat []).set p.2.toNat v := by
        rw [hd, hrow]
        refine getD_set_self pic p.1.toNat _ [] ?_
        obtain ⟨_, h2, _, _⟩ := hp
        omega
      rw [hrow', getD_set_ne _ p.2.toNat q.2.toNat v 0 (fun hcontra => hcol hcontra.symm)]
      rw [hrow]
    · have hrow' : pic'.getD q.1.toNat [] = pic.getD q.1.toNat [] := by
        rw [hd]
        exact getD_set_ne pic p.1.toNat q.1.toNat _ [] (fun hcontra => hrow hcontra.symm)
      rw [hrow']
  · have hq' : ¬ inb pic' q := fun hcontra => hqb ((inb_congr pic pic' q hl hh).mp hcontra)
    have hnone : ∀ r : List (List Int), ¬ inb r q → npGet true r q.1 q.2 = none := by
      intro r hr
      simp only [inb] at hr
      simp only [npGet]
      rw [if_neg hr]
      simp
    rw [hnone pic' hq', hnone pic hqb]

theorem clearOnes_spec (ones : List (Int × Int)) :
    ∀ pic, Rect pic → (∀ p ∈ ones, inb pic p) →
    ∃ pic', clearOnes true pic ones = some pic' ∧
      pic'.length = pic.length ∧ (pic'.headD []).length = (pic.headD []).length ∧
      Rect pic' ∧
      ∀ q : Int × Int, npGet true pic' q.1 q.2 =
        if q ∈ ones then some 0 else npGet true pic q.1 q.2 := by
  induction ones with
  | nil =>
      intro pic hR _
      exact ⟨pic, rfl, rfl, rfl, hR, by simp⟩
  | cons p ps ih =>
      intro pic hR h
      have hp : inb pic p := h p (List.mem_cons_self ..)
      have hset : npSet true pic p.1 p.2 0
          = some (pic.set p.1.toNat ((pic.getD p.1.toNat []).set p.2.toNat 0)) :=
        npSet_true_eq pic p 0 hp
      set pic1 := pic.set p.1.toNat ((pic.getD p.1.toNat []).set p.2.toNat 0) with hpic1
      have hl1 : pic1.length = pic.length := List.length_set ..
      have hh1 : (pic1.headD []).length = (pic.headD []).length := set_preserves_headD_length ..
      have hR1 : Rect pic1 := set_preserves_rect pic p.1.toNat p.2.toNat 0 hR
      have hb1 : ∀ q ∈ ps, inb pic1 q := by
        intro q hq
        exact (inb_congr pic pic1 q hl1 hh1).mpr (h q (List.mem_cons_of_mem p hq))
      obtain ⟨pic', hrun, hl, hh, hRect, hget⟩ := ih pic1 hR1 hb1
      refine ⟨pic', ?_, by rw [hl, hl1], by rw [hh, hh1], hRect, ?_⟩
      · simp only [clearOnes, Option.bind_eq_bind]
        rw [hset]
        simpa using hrun
      · intro q
        rw [hget q]
        by_cases hqs : q ∈ ps
        · rw [if_pos hqs, if_pos (List.mem_cons_of_mem p hqs)]
        · rw [if_neg hqs]
          by_cases hqp : q = p
          · subst hqp
            rw [if_pos (List.mem_cons_self ..), hpic1]
            have := npGet_set_self pic q 0 hR hp
            exact this
          · rw [if_neg (by simp [hqs, hqp]), hpic1]
            exact npGet_set_ne pic p q 0 hp hqp

/-! ### Neighbour-scan and counting lemmas -/

theorem scanNeighbors_spec (pic : List (List Int)) (ts : List (Int × Int))
    (h : ∀ t ∈ ts, inb pic t) :
    ∃ l, scanNeighbors true pic ts = some l ∧ ∀ q, q ∈ l ↔ q ∈ ts ∧ isOne pic q := by
  induction ts with
  | nil => exact ⟨[], rfl, by simp⟩
  | cons t ts ih =>
      obtain ⟨l, hrun, hmem⟩ := ih (fun x hx => h x (List.mem_cons_of_mem t hx))
      have ht : inb pic t := h t (List.mem_cons_self ..)
      have hget := npGet_true_eq pic t ht
      by_cases hv : (pic.getD t.1.toNat []).getD t.2.toNat 0 = 1
      · refine ⟨t :: l, ?_, ?_⟩
        · simp only [scanNeighbors, Option.bind_eq_bind]
          rw [hget, hrun]
          simp only [Option.some_bind, Option.pure_def]
          rw [if_pos hv]
        · intro q
          simp only [List.mem_cons, hmem q]
          constructor
          · rintro (rfl | ⟨hq1, hq2⟩)
            · exact ⟨Or.inl rfl, by rw [isOne, hget, hv]⟩
            · exact ⟨Or.inr hq1, hq2⟩
          · rintro ⟨rfl | hq1, hq2⟩
            · exact Or.inl rfl
            · exact Or.inr ⟨hq1, hq2⟩
      · refine ⟨l, ?_, ?_⟩
        · simp only [scanNeighbors, Option.bind_eq_bind]
          rw [hget, hrun]
          simp only [Option.some_bind, Option.pure_def]
          rw [if_neg hv]
        · intro q
          rw [hmem q]
          simp only [List.mem_cons]
          constructor
          · rintro ⟨hq1, hq2⟩
            exact ⟨Or.inr hq1, hq2⟩
          · rintro ⟨rfl | hq1, hq2⟩
            · rw [isOne, hget] at hq2
              exact absurd (Option.some_inj.mp hq2) hv
            · exact ⟨hq1, hq2⟩

theorem collectNew_spec (pic : List (List Int)) (ones : List (Int × Int))
    (h : ∀ p ∈ ones, ∀ t ∈ testids p, inb pic t) :
    ∃ l, collectNew true pic ones = some l ∧
      ∀ q, q ∈ l ↔ ∃ p ∈ ones, q ∈ testids p ∧ isOne pic q := by
  induction ones with
  | nil => exact ⟨[], rfl, by simp⟩
  | cons p ps ih =>
      obtain ⟨l1, hrun1, hmem1⟩ :=
        scanNeighbors_spec pic (testids p) (h p (List.mem_cons_self ..))
      obtain ⟨l2, hrun2, hmem2⟩ := ih (fun x hx => h x (List.mem_cons_of_mem p hx))
      refine ⟨l1 ++ l2, ?_, ?_⟩
      · simp only [collectNew, newOnesOf, Option.bind_eq_bind]
        rw [hrun1, hrun2]
        rfl
      · intro q
        simp only [List.mem_append, hmem1 q, hmem2 q, List.mem_cons]
        constructor
        · rintro (⟨ht, hone⟩ | ⟨r, hr, ht, hone⟩)
          · exact ⟨p, Or.inl rfl, ht, hone⟩
          · exact ⟨r, Or.inr hr, ht, hone⟩
        · rintro ⟨r, rfl | hr, ht, hone⟩
          · exact Or.inl ⟨ht, hone⟩
          · exact Or.inr ⟨r, hr, ht, hone⟩

theorem countP_set_pf (pf : Int → Bool) (l : List Int) :
    ∀ j, j < l.length → ∀ a : Int,
    (l.set j a).countP pf + (if pf (l.getD j 0) then 1 else 0)
      = l.countP pf + (if pf a then 1 else 0) := by
  induction l with
  | nil => intro j hj; simp at hj
  | cons x xs ih =>
      intro j hj a
      cases j with
      | zero =>
          simp only [List.set, List.countP_cons, List.getD_cons_zero]
          by_cases h1 : pf x <;> by_cases h2 : pf a <;> simp only [h1, h2, if_true, if_false] <;>
            omega
      | succ n =>
          simp only [List.set, List.countP_cons, List.getD_cons_succ]
          have := ih n (by simpa using hj) a
          by_cases h1 : pf x <;> simp only [h1, if_true, if_false] <;> omega

theorem sum_set_nat (l : List Nat) :
    ∀ i, i < l.length → ∀ x : Nat,
    (l.set i x).sum + l.getD i 0 = l.sum + x := by
  induction l with
  | nil => intro i hi; simp at hi
  | cons y ys ih =>
      intro i hi x
      cases i with
      | zero =>
          simp only [List.set, List.sum_cons, List.getD_cons_zero]
          omega
      | succ n =>
          simp only [List.set, List.sum_cons, List.getD_cons_succ]
          have := ih n (by simpa using hi) x
          omega

theorem getD_map_countP (pic : List (List Int)) (i : Nat) (h : i < pic.length) :
    (pic.map (fun row => row.countP (fun v => v = 1))).getD i 0
      = (pic.getD i []).countP (fun v => v = 1) := by
  rw [List.getD_eq_getElem _ _ (by simpa using h), List.getD_eq_getElem _ _ h,
    List.getElem_map]

theorem countP_set_one_to_zero (l : List Int) (j : Nat) (h : j < l.length)
    (hval : l.getD j 0 = 1) :
    (l.set j 0).countP (fun v => v = 1) + 1 = l.countP (fun v => v = 1) := by
  have hc := countP_set_pf (fun v => v = 1) l j h 0
  rw [hval] at hc
  simpa using hc

theorem onesCount_clear_one (pic : List (List Int)) (p : Int × Int)
    (hR : Rect pic) (h1 : isOne pic p) :
    onesCount (pic.set p.1.toNat ((pic.getD p.1.toNat []).set p.2.toNat 0)) + 1
      = onesCount pic := by
  obtain ⟨hb, hval⟩ := (npGet_true_some_iff pic p 1).mp h1
  obtain ⟨hb1, hb2, hb3, hb4⟩ := hb
  have hiN : p.1.toNat < pic.length := by omega
  have hrowlen : (pic.getD p.1.toNat []).length = (pic.headD []).length :=
    hR _ (getD_mem_of_lt pic p.1.toNat [] hiN)
  have hjN : p.2.toNat < (pic.getD p.1.toNat []).length := by rw [hrowlen]; omega
  have hcount := countP_set_one_to_zero (pic.getD p.1.toNat []) p.2.toNat hjN hval
  unfold onesCount
  rw [List.map_set]
  have hsum := sum_set_nat (pic.map (fun row => row.countP (fun v => v = 1)))
    p.1.toNat (by simpa using hiN)
    (((pic.getD p.1.toNat []).set p.2.toNat 0).countP (fun v => v = 1))
  rw [getD_map_countP pic p.1.toNat hiN] at hsum
  omega

theorem isOne_inb (pic : List (List Int)) (p : Int × Int) (h : isOne pic p) : inb pic p :=
  ((npGet_true_some_iff pic p 1).mp h).1

theorem clearOnes_count (ones : List (Int × Int)) :
    ∀ pic pic', Rect pic → ones.Nodup → (∀ p ∈ ones, isOne pic p) →
      clearOnes true pic ones = some pic' →
      onesCount pic' + ones.length = onesCount pic := by
  induction ones with
  | nil =>
      intro pic pic' _ _ _ hrun
      cases hrun
      simp
  | cons p ps ih =>
      intro pic pic' hR hnd hall hrun
      have hp : isOne pic p := hall p (List.mem_cons_self ..)
      have hpb : inb pic p := isOne_inb pic p hp
      have hset : npSet true pic p.1 p.2 0
          = some (pic.set p.1.toNat ((pic.getD p.1.toNat []).set p.2.toNat 0)) :=
        npSet_true_eq pic p 0 hpb
      set pic1 := pic.set p.1.toNat ((pic.getD p.1.toNat []).set p.2.toNat 0) with hpic1
      simp only [clearOnes, Option.bind_eq_bind] at hrun
      rw [hset] at hrun
      simp only [Option.some_bind] at hrun
      have hR1 : Rect pic1 := set_preserves_rect pic p.1.toNat p.2.toNat 0 hR
      have hnd1 : ps.Nodup := (List.nodup_cons.mp hnd).2
      have hnp : p ∉ ps := (List.nodup_cons.mp hnd).1
      have hall1 : ∀ q ∈ ps, isOne pic1 q := by
        intro q hq
        have hne : q ≠ p := fun hcontra => hnp (hcontra ▸ hq)
        rw [isOne, hpic1, npGet_set_ne pic p q 0 hpb hne]
        exact hall q (List.mem_cons_of_mem p hq)
      have hdec := onesCount_clear_one pic p hR hp
      rw [← hpic1] at hdec
      have := ih pic1 pic' hR1 hnd1 hall1 hrun
      simp only [List.length_cons]
      omega

theorem testids_mem_iff (p q : Int × Int) : q ∈ testids p ↔ adj8 p q := by
  obtain ⟨p1, p2⟩ := p
  obtain ⟨q1, q2⟩ := q
  simp only [testids, adj8, List.mem_cons, List.not_mem_nil, or_false,
    Prod.mk.injEq, Prod.ext_iff, ne_eq]
  omega

theorem rtg_end_isOne (pic : List (List Int)) (w b : Int × Int) (hw : isOne pic w)
    (h : Relation.ReflTransGen (fun u v => adj8 u v ∧ isOne pic u ∧ isOne pic v) w b) :
    isOne pic b := by
  induction h with
  | refl => exact hw
  | tail _ hstep _ => exact hstep.2.2

theorem comp8_isOne (pic : List (List Int)) (s p : Int × Int) (hs : isOne pic s)
    (hp : p ∈ comp8 pic s) : isOne pic p :=
  rtg_end_isOne pic s p hs hp

theorem comp8_closed (pic : List (List Int)) (s p q : Int × Int) (hs : isOne pic s)
    (hp : p ∈ comp8 pic s) (hadj : adj8 p q) (hq : isOne pic q) : q ∈ comp8 pic s :=
  Relation.ReflTransGen.tail hp ⟨hadj, comp8_isOne pic s p hs hp, hq⟩

theorem flood_transfer (pic pic1 : List (List Int)) (ones ones1 : List (Int × Int))
    (hpic1 : ∀ q : Int × Int, npGet true pic1 q.1 q.2
      = if q ∈ ones then some 0 else npGet true pic q.1 q.2)
    (hones1 : ∀ q : Int × Int, q ∈ ones1 ↔ ∃ p ∈ ones, q ∈ testids p ∧ isOne pic1 q) :
    ∀ o p, Relation.ReflTransGen (fun u v => adj8 u v ∧ isOne pic u ∧ isOne pic v) o p →
      o ∈ ones →
      p ∈ ones ∨ ∃ w ∈ ones1,
        Relation.ReflTransGen (fun u v => adj8 u v ∧ isOne pic1 u ∧ isOne pic1 v) w p := by
  intro o p hpath ho
  induction hpath with
  | refl => exact Or.inl ho
  | @tail b c hob hstep ih =>
      obtain ⟨hadj, hbone, hcone⟩ := hstep
      by_cases hc : c ∈ ones
      · exact Or.inl hc
      · right
        have hcone1 : isOne pic1 c := by
          rw [isOne, hpic1 c, if_neg hc]
          exact hcone
        rcases ih with hb | ⟨w, hw, hpath1⟩
        · exact ⟨c, (hones1 c).mpr ⟨b, hb, (testids_mem_iff b c).mpr hadj, hcone1⟩,
            Relation.ReflTransGen.refl⟩
        · have hwone1 : isOne pic1 w := by
            obtain ⟨_, _, _, hone⟩ := (hones1 w).mp hw
            exact hone
          have hbone1 : isOne pic1 b := rtg_end_isOne pic1 w b hwone1 hpath1
          exact ⟨w, hw, Relation.ReflTransGen.tail hpath1 ⟨hadj, hbone1, hcone1⟩⟩

theorem flood_loop_spec (pic0 : List (List Int)) (s : Int × Int)
    (hs : isOne pic0 s)
    (hborder : ∀ p ∈ comp8 pic0 s, ¬ onBorder pic0 p) :
    ∀ fuel pic ones acc,
      pic.length = pic0.length →
      (pic.headD []).length = (pic0.headD []).length →
      Rect pic →
      (∀ q : Int × Int, npGet true pic q.1 q.2
        = if q ∈ acc then some 0 else npGet true pic0 q.1 q.2) →
      acc.Nodup → (∀ p ∈ acc, p ∈ comp8 pic0 s) →
      ones.Nodup → (∀ p ∈ ones, p ∈ comp8 pic0 s) → (∀ p ∈ ones, isOne pic p) →
      ones ≠ [] →
      (∀ p ∈ comp8 pic0 s, p ∈ acc ∨ ∃ o ∈ ones,
        Relation.ReflTransGen (fun u v => adj8 u v ∧ isOne pic u ∧ isOne pic v) o p) →
      onesCount pic + 1 ≤ fuel →
      ∃ pic' ids, flood_loop true fuel pic ones acc = some (pic', ids) ∧
        ids.Nodup ∧
        (∀ q, q ∈ ids ↔ q ∈ comp8 pic0 s) ∧
        (∀ q : Int × Int, npGet true pic' q.1 q.2
          = if q ∈ ids then some 0 else npGet true pic0 q.1 q.2) := by
  intro fuel
  induction fuel with
  | zero =>
      intro pic ones acc _ _ _ _ _ _ _ _ _ _ _ hfuel
      exact absurd hfuel (by omega)
  | succ fuel ih =>
      intro pic ones acc hlen hhead hR hacc haccnd haccC honesnd honesC honesOne hne
        hcomplete hfuel
      have honesInb : ∀ p ∈ ones, inb pic p := fun p hp => isOne_inb pic p (honesOne p hp)
      obtain ⟨pic1, hclear, hl1, hh1, hR1, hget1⟩ := clearOnes_spec ones pic hR honesInb
      have hnbInb : ∀ p ∈ ones, ∀ t ∈ testids p, inb pic1 t := by
        intro p hp t ht
        have hnb : ¬ onBorder pic0 p := hborder p (honesC p hp)
        have hpb : inb pic p := honesInb p hp
        obtain ⟨hne', d1, d2, d3, d4⟩ := (testids_mem_iff p t).mp ht
        obtain ⟨b1, b2, b3, b4⟩ := hpb
        rw [hlen] at b2
        rw [hhead] at b4
        unfold onBorder at hnb
        push_neg at hnb
        obtain ⟨n1, n2, n3, n4⟩ := hnb
        simp only [inb]
        rw [hl1, hh1, hlen, hhead]
        refine ⟨by omega, by omega, by omega, by omega⟩
      obtain ⟨newOnes, hcollect, hnew⟩ := collectNew_spec pic1 ones hnbInb
      have hones1mem : ∀ q, q ∈ newOnes.dedup ↔
          ∃ p ∈ ones, q ∈ testids p ∧ isOne pic1 q := by
        intro q
        rw [List.mem_dedup]
        exact hnew q
      have hones1C : ∀ q ∈ newOnes.dedup, q ∈ comp8 pic0 s := by
        intro q hq
        obtain ⟨p, hp, ht, hone1⟩ := (hones1mem q).mp hq
        have hqone0 : isOne pic0 q := by
          have hq1 := hget1 q
          rw [isOne] at hone1 ⊢
          by_cases hqin : q ∈ ones
          · rw [hq1, if_pos hqin] at hone1
            cases hone1
          · rw [hq1, if_neg hqin, hacc q] at hone1
            by_cases hqa : q ∈ acc
            · rw [if_pos hqa] at hone1
              cases hone1
            · rwa [if_neg hqa] at hone1
        exact comp8_closed pic0 s p q hs (honesC p hp) ((testids_mem_iff p q).mp ht) hqone0
      have hones1one : ∀ q ∈ newOnes.dedup, isOne pic1 q := by
        intro q hq
        obtain ⟨_, _, _, h⟩ := (hones1mem q).mp hq
        exact h
      have haccdisj : ∀ p ∈ ones, p ∉ acc := by
        intro p hp hpa
        have h1 := honesOne p hp
        rw [isOne, hacc p, if_pos hpa] at h1
        cases h1
      have hacc1nd : (acc ++ ones).Nodup :=
        List.Nodup.append haccnd honesnd (fun a ha hb => haccdisj a hb ha)
      have hacc1C : ∀ p ∈ acc ++ ones, p ∈ comp8 pic0 s := by
        intro p hp
        rcases List.mem_append.mp hp with h | h
        · exact haccC p h
        · exact honesC p h
      have hget1' : ∀ q : Int × Int, npGet true pic1 q.1 q.2
          = if q ∈ acc ++ ones then some 0 else npGet true pic0 q.1 q.2 := by
        intro q
        rw [hget1 q]
        by_cases hq : q ∈ ones
        · rw [if_pos hq, if_pos (List.mem_append.mpr (Or.inr hq))]
        · rw [if_neg hq, hacc q]
          by_cases hqa : q ∈ acc
          · rw [if_pos hqa, if_pos (List.mem_append.mpr (Or.inl hqa))]
          · rw [if_neg hqa, if_neg (by simp [hq, hqa])]
      by_cases hempty : newOnes.dedup.isEmpty
      · refine ⟨pic1, acc ++ ones, ?_, hacc1nd, ?_, ?_⟩
        · simp only [flood_loop, Option.bind_eq_bind]
          rw [hclear]
          simp only [Option.some_bind]
          rw [hcollect]
          simp only [Option.some_bind]
          rw [if_pos hempty]
          rfl
        · intro q
          constructor
          · exact hacc1C q
          · intro hq
            rcases hcomplete q hq with h | ⟨o, ho, hpath⟩
            · exact List.mem_append.mpr (Or.inl h)
            · rcases flood_transfer pic pic1 ones newOnes.dedup hget1 hones1mem o q hpath ho
                with h | ⟨w, hw, _⟩
              · exact List.mem_append.mpr (Or.inr h)
              · rw [List.isEmpty_iff] at hempty
                rw [hempty] at hw
                cases hw
        · exact hget1'
      · have hone1ne : newOnes.dedup ≠ [] := by
          intro hcontra
          rw [List.isEmpty_iff] at hempty
          exact hempty hcontra
        have hcnt : onesCount pic1 + ones.length = onesCount pic :=
          clearOnes_count ones pic pic1 hR honesnd honesOne hclear
        have honeslen : 1 ≤ ones.length := by
          cases ones with
          | nil => exact absurd rfl hne
          | cons a as => simp
        have hfuel1 : onesCount pic1 + 1 ≤ fuel := by omega
        have hcomplete1 : ∀ p ∈ comp8 pic0 s, p ∈ acc ++ ones ∨ ∃ o ∈ newOnes.dedup,
            Relation.ReflTransGen (fun u v => adj8 u v ∧ isOne pic1 u ∧ isOne pic1 v) o p := by
          intro p hp
          rcases hcomplete p hp with h | ⟨o, ho, hpath⟩
          · exact Or.inl (List.mem_append.mpr (Or.inl h))
          · rcases flood_transfer pic pic1 ones newOnes.dedup hget1 hones1mem o p hpath ho
              with h | h
            · exact Or.inl (List.mem_append.mpr (Or.inr h))
            · exact Or.inr h
        obtain ⟨pic', ids, hrun, hnd, hidsC, hclear'⟩ := ih pic1 newOnes.dedup (acc ++ ones)
          (by rw [hl1, hlen]) (by rw [hh1, hhead]) hR1 hget1' hacc1nd hacc1C
          (List.nodup_dedup newOnes) hones1C hones1one hone1ne hcomplete1 hfuel1
        refine ⟨pic', ids, ?_, hnd, hidsC, hclear'⟩
        simp only [flood_loop, Option.bind_eq_bind]
        rw [hclear]
        simp only [Option.some_bind]
        rw [hcollect]
        simp only [Option.some_bind]
        rw [if_neg hempty]
        exact hrun

theorem clearOnes_unchecked (ones : List (Int × Int)) :
    ∀ pic pic', clearOnes true pic ones = some pic' → clearOnes false pic ones = some pic' := by
  induction ones with
  | nil => intro pic pic' h; exact h
  | cons p ps ih =>
      intro pic pic' h
      simp only [clearOnes, Option.bind_eq_bind, Option.bind_eq_some] at h ⊢
      obtain ⟨pic1, hset, hrest⟩ := h
      exact ⟨pic1, npSet_false_of_true pic p.1 p.2 0 pic1 hset, ih pic1 pic' hrest⟩

theorem scanNeighbors_unchecked (pic : List (List Int)) :
    ∀ ts l, scanNeighbors true pic ts = some l → scanNeighbors false pic ts = some l := by
  intro ts
  induction ts with
  | nil => intro l h; exact h
  | cons t ts ih =>
      intro l h
      simp only [scanNeighbors, Option.bind_eq_bind, Option.bind_eq_some] at h ⊢
      obtain ⟨v, hget, rest, hrest, hl⟩ := h
      exact ⟨v, npGet_false_of_true pic t.1 t.2 v hget, rest, ih rest hrest, hl⟩

theorem collectNew_unchecked (pic : List (List Int)) :
    ∀ ones l, collectNew true pic ones = some l → collectNew false pic ones = some l := by
  intro ones
  induction ones with
  | nil => intro l h; exact h
  | cons p ps ih =>
      intro l h
      simp only [collectNew, newOnesOf, Option.bind_eq_bind, Option.bind_eq_some] at h ⊢
      obtain ⟨here, hhere, rest, hrest, hl⟩ := h
      exact ⟨here, scanNeighbors_unchecked pic (testids p) here hhere, rest, ih rest hrest, hl⟩

theorem flood_loop_unchecked :
    ∀ fuel pic ones acc r, flood_loop true fuel pic ones acc = some r →
      flood_loop false fuel pic ones acc = some r := by
  intro fuel
  induction fuel with
  | zero => intro pic ones acc r h; cases h
  | succ fuel ih =>
      intro pic ones acc r h
      simp only [flood_loop, Option.bind_eq_bind, Option.bind_eq_some] at h ⊢
      obtain ⟨pic1, hclear, newOnes, hcollect, h⟩ := h
      refine ⟨pic1, clearOnes_unchecked ones pic pic1 hclear, newOnes,
        collectNew_unchecked pic1 ones newOnes hcollect, ?_⟩
      by_cases hemp : newOnes.dedup.isEmpty
      · rw [if_pos hemp] at h ⊢
        exact h
      · rw [if_neg hemp] at h ⊢
        exact ih pic1 newOnes.dedup (acc ++ ones) r h

/-- Claim C10.  Under the precondition that the seed is a set pixel and no
pixel of its 8-connected component of 1-pixels lies in the mask's first or
last row or column, both flood fills (`remove_tick`, seeded at `[[I, J]]`,
and `grow_and_remove_number`, seeded at `startone`) run every mask access
at canonical in-bounds indices — the strict interpreter (`checked = true`),
which rejects the IndexError branch and Python's negative-index
wrap-around alike, succeeds, and the Python-faithful wrapping interpreter
(`checked = false`) returns the same result — with a duplicate-free
coordinate list holding exactly the seed's 8-connected component, each of
its pixels cleared to 0 in the returned mask and every other pixel left
unchanged. -/
theorem remove_tick_floodfill_correct (pic : List (List Int)) (s : Int × Int)
    (hR : Rect pic) (hs : isOne pic s)
    (hborder : ∀ p ∈ comp8 pic s, ¬ onBorder pic p) :
    ∃ pic' ids,
      remove_tick true pic s.2 s.1 = some (pic', ids) ∧
      remove_tick false pic s.2 s.1 = some (pic', ids) ∧
      grow_and_remove_number true pic s = some (pic', ids) ∧
      grow_and_remove_number false pic s = some (pic', ids) ∧
      ids.Nodup ∧
      (∀ q, q ∈ ids ↔ q ∈ comp8 pic s) ∧
      (∀ q : Int × Int, npGet true pic' q.1 q.2
        = if q ∈ ids then some 0 else npGet true pic q.1 q.2) := by
  have hinit := flood_loop_spec pic s hs hborder (onesCount pic + 2) pic [s] []
    rfl rfl hR (by intro q; simp)
    List.nodup_nil (by intro p hp; cases hp)
    (List.nodup_singleton s)
    (by
      intro p hp
      rw [List.mem_singleton] at hp
      subst hp
      exact Relation.ReflTransGen.refl)
    (by
      intro p hp
      rw [List.mem_singleton] at hp
      subst hp
      exact hs)
    (by simp)
    (by
      intro p hp
      right
      exact ⟨s, List.mem_singleton_self s, hp⟩)
    (by omega)
  obtain ⟨pic', ids, hrun, hnd, hidsC, hclear⟩ := hinit
  have hseed : [((s.1, s.2) : Int × Int)] = [s] := by simp
  have hrt : remove_tick true pic s.2 s.1 = some (pic', ids) := by
    rw [remove_tick, hseed]
    exact hrun
  have hgn : grow_and_remove_number true pic s = some (pic', ids) := by
    rw [grow_and_remove_number, hseed]
    exact hrun
  refine ⟨pic', ids, hrt, ?_, hgn, ?_, hnd, hidsC, ?_⟩
  · rw [remove_tick, hseed]
    exact flood_loop_unchecked _ _ _ _ _ hrun
  · rw [grow_and_remove_number, hseed]
    exact flood_loop_unchecked _ _ _ _ _ hrun
  · intro q
    exact hclear q

/-- Witness for C10: the 3×3 mask with a single set pixel at its center. -/
theorem remove_tick_floodfill_correct_witness :
    Rect [[0, 0, 0], [0, 1, 0], [0, 0, 0]] ∧
    isOne [[0, 0, 0], [0, 1, 0], [0, 0, 0]] (1, 1) ∧
    (∀ p ∈ comp8 [[0, 0, 0], [0, 1, 0], [0, 0, 0]] (1, 1),
      ¬ onBorder [[0, 0, 0], [0, 1, 0], [0, 0, 0]] p) ∧
    ∃ pic' ids,
      remove_tick true [[0, 0, 0], [0, 1, 0], [0, 0, 0]] 1 1 = some (pic', ids) ∧
      remove_tick false [[0, 0, 0], [0, 1, 0], [0, 0, 0]] 1 1 = some (pic', ids) ∧
      grow_and_remove_number true [[0, 0, 0], [0, 1, 0], [0, 0, 0]] (1, 1) = some (pic', ids) ∧
      grow_and_remove_number false [[0, 0, 0], [0, 1, 0], [0, 0, 0]] (1, 1)
        = some (pic', ids) ∧
      ids.Nodup ∧
      (∀ q, q ∈ ids ↔ q ∈ comp8 [[0, 0, 0], [0, 1, 0], [0, 0, 0]] (1, 1)) ∧
      (∀ q : Int × Int, npGet true pic' q.1 q.2
        = if q ∈ ids then some 0
          else npGet true [[0, 0, 0], [0, 1, 0], [0, 0, 0]] q.1 q.2) := by
  have hR : Rect [[0, 0, 0], [0, 1, 0], [0, 0, 0]] := by
    unfold Rect
    decide
  have hs : isOne [[0, 0, 0], [0, 1, 0], [0, 0, 0]] (1, 1) := by
    unfold isOne
    decide
  have honly : ∀ p : Int × Int, isOne [[0, 0, 0], [0, 1, 0], [0, 0, 0]] p → p = (1, 1) := by
    intro p hp
    obtain ⟨⟨h1, h2, h3, h4⟩, hval⟩ :=
      (npGet_true_some_iff [[0, 0, 0], [0, 1, 0], [0, 0, 0]] p 1).mp hp
    obtain ⟨x, y⟩ := p
    simp only at h1 h2 h3 h4 hval
    have h2' : x < 3 := by simpa using h2
    have h4' : y < 3 := by simpa using h4
    have h1' : 0 ≤ x := h1
    have h3' : 0 ≤ y := h3
    interval_cases x <;> interval_cases y <;> first | rfl | exact absurd hval (by decide)
  have hborder : ∀ p ∈ comp8 [[0, 0, 0], [0, 1, 0], [0, 0, 0]] (1, 1),
      ¬ onBorder [[0, 0, 0], [0, 1, 0], [0, 0, 0]] p := by
    intro p hp
    have h1 := comp8_isOne [[0, 0, 0], [0, 1, 0], [0, 0, 0]] (1, 1) p hs hp
    rw [honly p h1]
    unfold onBorder
    decide
  exact ⟨hR, hs, hborder,
    remove_tick_floodfill_correct [[0, 0, 0], [0, 1, 0], [0, 0, 0]] (1, 1) hR hs hborder⟩
